import Mathlib

/-!
Verification of the `ktransw` wrapper (src/ktransw.py): a shallow embedding of
the include scanner, the header resolver, the dependency emitter, the
orchestrating `main`, and the temporary-workspace cleanup, together with
theorems settling the specification's claims about them.

Strings from the Python source (read in binary mode) are modelled as
`List Char` over ASCII; the filesystem is an explicit list of existing paths;
the two external tools are oracles whose exit codes and outputs are inputs to
the model.
-/

namespace Ktransw

/-! ## Character classes

Python's `\s` for byte strings: space, tab, newline, carriage return,
vertical tab, form feed. -/

def isSpc (c : Char) : Bool :=
  c = ' ' || c = '\t' || c = '\n' || c = '\r' || c = '\x0b' || c = '\x0c'

def notSpc (c : Char) : Bool := !(isSpc c)

/-- The include-directive keyword `%INCLUDE` of the scanner's regex. -/
def INCLUDE_KW : List Char := ['%', 'I', 'N', 'C', 'L', 'U', 'D', 'E']

/-! ## The include scanner

`scan_for_inc_stmts` (ktransw.py:310-312) is
`re.findall(r'^(?!\s*--)\s*%INCLUDE\s+(\S+).*$', text, re.MULTILINE)`.
We model the regex engine's behaviour directly: match attempts start at
`^` positions (start of text / just after a newline); the negative lookahead
`(?!\s*--)` fails the attempt when the first non-whitespace from the attempt
position starts `--`; `\s*` before the keyword and `\s+` after it may cross
newlines; the captured group `(\S+)` is the maximal non-whitespace run; `.*$`
then consumes to the end of that line, where scanning resumes. -/

/-- The negative lookahead `\s*--` of the regex: true when, skipping
whitespace (including newlines), the next two characters are `--`. -/
def commentAhead : List Char → Bool
  | c1 :: c2 :: cs => (c1 = '-' && c2 = '-') || (isSpc c1 && commentAhead (c2 :: cs))
  | _ => false

/-- Drop up to and including the next newline: how the engine advances to the
next `^` position after a failed attempt, and past `.*$` after a match. -/
def dropLine : List Char → List Char
  | [] => []
  | c :: cs => if c = '\n' then cs else dropLine cs

/-- The captured group of a successful attempt at `cs`: skip `\s*`, the
keyword, `\s+`, then take the maximal `\S+` run. -/
def tokOf (cs : List Char) : List Char :=
  (((cs.dropWhile isSpc).drop 8).dropWhile isSpc).takeWhile notSpc

/-- The remainder of the text after a successful attempt at `cs` (after the
captured group, `.*$` consumes to the end of that line). -/
def restOf (cs : List Char) : List Char :=
  dropLine ((((cs.dropWhile isSpc).drop 8).dropWhile isSpc).drop (tokOf cs).length)

/-- One match attempt of the regex at a `^` position.  Returns the captured
group and the remainder of the text on success. -/
def tryMatch (cs : List Char) : Option (List Char × List Char) :=
  if commentAhead cs then none
  else if INCLUDE_KW.isPrefixOf (cs.dropWhile isSpc) then
    match (cs.dropWhile isSpc).drop 8 with
    | [] => none
    | c :: _ =>
      if isSpc c then
        if (tokOf cs).isEmpty then none else some (tokOf cs, restOf cs)
      else none
  else none

/-- Fuelled scanning loop of `re.findall` over the text (fuel is only for
termination; `scanAux` supplies enough). -/
def scanFuel : Nat → List Char → List (List Char)
  | 0, _ => []
  | n + 1, cs =>
    match tryMatch cs with
    | some p => p.1 :: scanFuel n p.2
    | none => if cs.isEmpty then [] else scanFuel n (dropLine cs)

def scanAux (cs : List Char) : List (List Char) :=
  scanFuel (cs.length + 1) cs

/-- Model of `scan_for_inc_stmts` (ktransw.py:310-312). -/
def scan_for_inc_stmts (text : String) : List String :=
  (scanAux text.data).map (fun l => String.mk l)

/-! ### Fuel elimination for the scanner -/

theorem dropLine_length_le (cs : List Char) : (dropLine cs).length ≤ cs.length := by
  induction cs with
  | nil => simp [dropLine]
  | cons c cs ih =>
    by_cases h : c = '\n'
    · simp [dropLine, h]
    · simp [dropLine, h]
      omega

theorem dropLine_length_lt (c : Char) (cs : List Char) :
    (dropLine (c :: cs)).length < (c :: cs).length := by
  by_cases h : c = '\n' <;> simp [dropLine, h]
  exact Nat.lt_succ_of_le (dropLine_length_le cs)

theorem tryMatch_eq_some {cs : List Char} {p : List Char × List Char}
    (h : tryMatch cs = some p) :
    p = (tokOf cs, restOf cs) ∧ (tokOf cs).isEmpty = false := by
  unfold tryMatch at h
  split at h
  · simp at h
  split at h
  · split at h
    · simp at h
    · split at h
      · split at h
        · simp at h
        · rename_i hemp
          exact ⟨(Option.some_inj.mp h).symm, Bool.not_eq_true _ ▸ by
            simpa using hemp⟩
      · simp at h
  · simp at h

theorem tryMatch_rest_lt {cs tok rest : List Char} (h : tryMatch cs = some (tok, rest)) :
    rest.length < cs.length := by
  obtain ⟨hp, hne⟩ := tryMatch_eq_some h
  obtain ⟨htok, hrest⟩ := Prod.mk.injEq .. ▸ hp
  subst htok
  subst hrest
  have h1 : (restOf cs).length ≤
      ((((cs.dropWhile isSpc).drop 8).dropWhile isSpc).drop (tokOf cs).length).length :=
    dropLine_length_le _
  rw [List.length_drop] at h1
  have h2 : 1 ≤ (tokOf cs).length := by
    cases htk : tokOf cs with
    | nil => rw [htk] at hne; simp at hne
    | cons a l => simp
  have h3 : (tokOf cs).length ≤ (((cs.dropWhile isSpc).drop 8).dropWhile isSpc).length :=
    (List.takeWhile_sublist _).length_le
  have h4 : ((((cs.dropWhile isSpc).drop 8)).dropWhile isSpc).length ≤
      ((cs.dropWhile isSpc).drop 8).length := (List.dropWhile_sublist _).length_le
  have h5 : ((cs.dropWhile isSpc).drop 8).length ≤ (cs.dropWhile isSpc).length := by
    rw [List.length_drop]; omega
  have h6 : (cs.dropWhile isSpc).length ≤ cs.length := (List.dropWhile_sublist _).length_le
  -- the token is a nonempty prefix of a list of length bounded by cs.length
  have h7 : 1 ≤ (((cs.dropWhile isSpc).drop 8).dropWhile isSpc).length := le_trans h2 h3
  omega

theorem scanFuel_succ (n : Nat) (cs : List Char) :
    scanFuel (n + 1) cs =
      match tryMatch cs with
      | some p => p.1 :: scanFuel n p.2
      | none => if cs.isEmpty then [] else scanFuel n (dropLine cs) := rfl

theorem scanFuel_eq_of_lt :
    ∀ (n m : Nat) (cs : List Char), cs.length < n → cs.length < m →
      scanFuel n cs = scanFuel m cs := by
  intro n
  induction n with
  | zero => intro m cs h; omega
  | succ n ih =>
    intro m cs hn hm
    cases m with
    | zero => omega
    | succ m =>
      rw [scanFuel_succ n cs, scanFuel_succ m cs]
      cases htm : tryMatch cs with
      | some p =>
        have hlt := @tryMatch_rest_lt cs p.1 p.2 (by rw [htm])
        simp only []
        rw [ih m p.2 (by omega) (by omega)]
      | none =>
        cases cs with
        | nil => rfl
        | cons c cs' =>
          have hlt := dropLine_length_lt c cs'
          simp only [List.length_cons] at hlt hn hm
          simp only [List.isEmpty_cons]
          rw [ih m (dropLine (c :: cs')) (by omega) (by omega)]

theorem scanAux_some {cs tok rest : List Char} (h : tryMatch cs = some (tok, rest)) :
    scanAux cs = tok :: scanAux rest := by
  have hlt := tryMatch_rest_lt h
  show scanFuel (cs.length + 1) cs = tok :: scanFuel (rest.length + 1) rest
  rw [scanFuel_succ, h]
  simp only []
  rw [scanFuel_eq_of_lt cs.length (rest.length + 1) rest (by omega) (by omega)]

theorem scanAux_none {c : Char} {cs : List Char} (h : tryMatch (c :: cs) = none) :
    scanAux (c :: cs) = scanAux (dropLine (c :: cs)) := by
  have hlt := dropLine_length_lt c cs
  show scanFuel ((c :: cs).length + 1) (c :: cs) = _
  rw [scanFuel_succ, h]
  simp only [List.isEmpty_cons]
  exact scanFuel_eq_of_lt (c :: cs).length ((dropLine (c :: cs)).length + 1)
    (dropLine (c :: cs)) (by omega) (by omega)

theorem scanAux_nil : scanAux [] = [] := rfl

/-! ## Path helpers

Models of the `os.path` (posix flavour) functions the source calls:
`isabs`, `join`, `basename`, `dirname`, `splitext`. -/

/-- Model of `os.path.isabs` (posix): the path starts with a slash. -/
def isabs (p : String) : Bool :=
  match p.data with
  | '/' :: _ => true
  | _ => false

/-- Suffix test on the character level (`str.endswith`). -/
def endsWithS (s suf : String) : Bool := suf.data.isSuffixOf s.data

/-- Model of `os.path.join` (posix) for two components. -/
def joinPath (a b : String) : String :=
  if isabs b then b
  else if a = "" then b
  else if endsWithS a "/" then a ++ b
  else a ++ "/" ++ b

/-- Index of the last occurrence of `c` in the list, if any. -/
def lastIdxAux (c : Char) : List Char → Nat → Option Nat → Option Nat
  | [], _, acc => acc
  | x :: xs, i, acc => lastIdxAux c xs (i + 1) (if x = c then some i else acc)

def lastIdx (c : Char) (l : List Char) : Option Nat := lastIdxAux c l 0 none

/-- Model of `os.path.basename` (posix): everything after the last slash. -/
def basename (p : String) : String :=
  match lastIdx '/' p.data with
  | none => p
  | some i => String.mk (p.data.drop (i + 1))

/-- Model of `os.path.dirname` (posix): everything up to the last slash, with trailing
slashes stripped unless the head is all slashes. -/
def dirname (p : String) : String :=
  match lastIdx '/' p.data with
  | none => ""
  | some i =>
    let hd := p.data.take (i + 1)
    if hd.all (fun c => c = '/') then String.mk hd
    else String.mk ((hd.reverse.dropWhile (fun c => c = '/')).reverse)

/-- The root part of `os.path.splitext` (posix): the extension starts at the
last dot, provided it lies in the basename after at least one non-dot
character. -/
def splitextRoot (p : String) : String :=
  match lastIdx '.' p.data with
  | none => p
  | some d =>
    let s := match lastIdx '/' p.data with
      | none => 0
      | some si => si + 1
    if ((p.data.drop s).take (d - s)).any (fun c => c ≠ '.') then
      String.mk (p.data.take d)
    else p

/-! ## Header classification and resolution -/

/-- The fixed allow-list of `is_system_header` (ktransw.py:315-340), the
system headers of Karel V7.70-1. -/
def SYSTEM_HEADERS : List String :=
  ["iosetup.kl", "kldctptx.kl", "kldcutil.kl", "klersys.kl", "klerxmlf.kl",
   "klevaxdf.kl", "klevccdf.kl", "klevkeys.kl", "klevkmsk.kl", "klevksp.kl",
   "klevtpe.kl", "klevutil.kl", "kliosop.kl", "kliotyps.kl", "kliouop.kl",
   "klrdread.kl", "klrdutil.kl", "kluifdir.kl", "passcons.kl", "ppedef.kl",
   "runform.kl", "sledef.kl"]

/-- Model of `is_system_header` (ktransw.py:315-340): exact membership test. -/
def is_system_header (header : String) : Bool := SYSTEM_HEADERS.contains header

/-- Model of `find_hdr_in_incdirs` (ktransw.py:343-347).  Here `fs` is the set of paths for
which `os.path.exists` answers true; the `ValueError` of the source is
`none`. -/
def find_hdr_in_incdirs (fs : List String) (header : String) :
    List String → Option String
  | [] => none
  | d :: ds =>
    if fs.contains (joinPath d header) then some d
    else find_hdr_in_incdirs fs header ds

/-- The per-header resolution step of `main` (ktransw.py:166-174): an absolute
reference stands as it is; a relative one is searched for in the include
directories and prefixed with the first directory containing it. -/
def resolveHdr (fs dirs : List String) (hdr : String) : Option String :=
  if isabs hdr then some hdr
  else
    match find_hdr_in_incdirs fs hdr dirs with
    | some d => some (joinPath d hdr)
    | none => none

/-- Outcome of `main`'s dependency loop body for one header
(ktransw.py:160-183). -/
inductive HdrResult where
  | skipped
  | dep (path : String)
  | fatal (hdr : String)
deriving DecidableEq

/-- One iteration of `main`'s dependency loop (ktransw.py:160-183): skip
system headers when `-MM` was given; otherwise resolve, with an unresolved
header either tolerated under `-MG` (kept under its relative name) or
fatal. -/
def processHeader (fs dirs : List String) (ignoreSys ignoreMissing : Bool)
    (hdr : String) : HdrResult :=
  if ignoreSys && is_system_header hdr then .skipped
  else
    match resolveHdr fs dirs hdr with
    | some p => .dep p
    | none => if ignoreMissing then .dep hdr else .fatal hdr

/-- The dependency loop of `main` over all scanned includes (ktransw.py:159-183):
either the in-order list of dependency paths, or the first header whose
resolution was fatal (the source exits right there). -/
def collectDeps (fs dirs : List String) (ignoreSys ignoreMissing : Bool) :
    List String → Except String (List String)
  | [] => .ok []
  | h :: hs =>
    match processHeader fs dirs ignoreSys ignoreMissing h with
    | .skipped => collectDeps fs dirs ignoreSys ignoreMissing hs
    | .dep p => (collectDeps fs dirs ignoreSys ignoreMissing hs).map (fun ds => p :: ds)
    | .fatal h0 => .error h0

/-! ## Dependency emission -/

/-- The dependency rule text of ktransw.py:185-188: the target, the
backslash-continued tab-indented dependency list, and optionally one phony
rule per dependency under `-MP`. -/
def emitRule (target : String) (deps : List String) (phony : Bool) : String :=
  let dep_lines := target ++ " : " ++ String.intercalate " \\\n\t" deps ++ "\n"
  if phony then
    dep_lines ++ String.intercalate "\n" (deps.map (fun d => d ++ ":")) ++ "\n"
  else dep_lines

/-! ## String replacement

`str.replace` of ktransw.py:298: replace every non-overlapping occurrence,
scanning left to right.  (Python's special behaviour for an empty pattern is
irrelevant here: the pattern is a `mkdtemp` result, never empty.) -/

def replaceFuel (pat rep : List Char) : Nat → List Char → List Char
  | 0, s => s
  | n + 1, s =>
    match s with
    | [] => []
    | c :: cs =>
      if pat.isEmpty then c :: replaceFuel pat rep n cs
      else if pat.isPrefixOf (c :: cs) then
        rep ++ replaceFuel pat rep n ((c :: cs).drop pat.length)
      else c :: replaceFuel pat rep n cs

def replaceIn (pat rep s : List Char) : List Char := replaceFuel pat rep s.length s

/-- Model of `out.replace(pat, rep)` on strings. -/
def replaceAll (s pat rep : String) : String :=
  String.mk (replaceIn pat.data rep.data s.data)

/-! ## The orchestrating `main` (ktransw.py:27-301)

Argument parsing itself is out of scope; `Args` is the parsed result.  The
oracle `ExtWorld` supplies what the environment answers: the filesystem, file
contents, the `mkdtemp` name, and the exit codes and outputs of the two
external tools. -/

structure Args where
  verbose : Bool
  quiet : Bool
  dry_run : Bool
  dep_output : Bool
  ignore_syshdrs : Bool
  dep_target : Option String
  dep_fname : Option String
  ignore_missing_hdrs : Bool
  add_phony_tgt_for_deps : Bool
  include_dirs : List String
  ktrans_args : List String

structure ExtWorld where
  /-- paths for which `os.path.exists` is true -/
  fs : List String
  /-- file contents, as read in binary mode -/
  contents : String → String
  /-- the temporary directory `mkdtemp` returns -/
  dname : String
  /-- gpp's exit code -/
  gppRet : Int
  /-- gpp's captured stderr -/
  gppStderr : String
  /-- ktrans' exit code -/
  ktransRet : Int
  /-- ktrans' captured, merged stdout+stderr -/
  ktransOut : String

/-- Observable actions of one `ktransw` run, in order. -/
inductive Ev where
  | stdoutWrite (s : String)
  | stderrWrite (s : String)
  | depFileWrite (fname contents : String)
  | acquireWs (d : String)
  | releaseWs (d : String)
  | runGpp (src dest : String)
  | runKtrans (cmd : List String)
deriving DecidableEq

def KTRANSW_VERSION : String := "0.1.99"
def KTRANS_BIN_NAME : String := "ktrans.exe"
def OS_EX_DATAERR : Int := 65
def KL_SUFFIX : String := ".kl"
def PCODE_SUFFIX : String := ".pc"

/-- ktransw.py:179: the fatal-error line for an unresolved header. -/
def fatalMsg (hdr : String) : String :=
  "ktransw: fatal error: " ++ hdr ++ ": No such file or directory\n"

/-- ktransw.py:210-211: the banner of the pass-through branch. -/
def banner : String :=
  "KTRANSW V" ++ KTRANSW_VERSION ++ ", Copyright (C) 2016 G.A. vd. Hoorn\n"

/-- The dependency-output branch of `main` (ktransw.py:140-199): scan the
first KAREL source, resolve, and either fail fatally or emit the rule to the
`-MF` file or stdout. -/
def depModeRun (w : ExtWorld) (a : Args) (kl_file : String) : List Ev × Int :=
  let incs := scan_for_inc_stmts (w.contents kl_file)
  let target := a.dep_target.getD (basename (splitextRoot kl_file) ++ PCODE_SUFFIX)
  match collectDeps w.fs a.include_dirs a.ignore_syshdrs a.ignore_missing_hdrs incs with
  | .error h => ([.stderrWrite (fatalMsg h)], OS_EX_DATAERR)
  | .ok deps =>
    let dep_lines := emitRule target deps a.add_phony_tgt_for_deps
    match a.dep_fname with
    | some f => ([.depFileWrite f dep_lines], 0)
    | none => ([.stdoutWrite dep_lines], 0)

/-- The compile branch of `main` (ktransw.py:229-301): acquire the workspace,
run gpp into it, and on success run ktrans on the substituted argument list,
emitting ktrans' output with the workspace path rewritten to the source's
directory.  The workspace is released on every path out of the `with`
scope. -/
def compileRun (w : ExtWorld) (a : Args) (kl_file : String) : List Ev × Int :=
  let fname := joinPath w.dname (basename kl_file)
  if w.gppRet ≠ 0 then
    ([.acquireWs w.dname, .runGpp kl_file fname,
      .stderrWrite (w.gppStderr ++ "\nTranslation terminated\n"),
      .releaseWs w.dname], w.gppRet)
  else
    let newArgs := a.ktrans_args.map (fun s => if s = kl_file then fname else s)
    let outEvs :=
      if w.ktransRet ≠ 0 || !a.quiet || a.verbose then
        [Ev.stdoutWrite (replaceAll w.ktransOut w.dname (dirname kl_file) ++ "\n")]
      else []
    ([.acquireWs w.dname, .runGpp kl_file fname,
      .runKtrans (KTRANS_BIN_NAME :: newArgs)] ++ outEvs ++ [.releaseWs w.dname],
     w.ktransRet)

/-- Model of `main` (ktransw.py:27-301) after argument parsing, as a trace of
observable actions plus the process exit code.  KAREL sources among the
pass-through arguments are those ending in `.kl` (ktransw.py:136); the
dependency branch runs when `-M`/`-MM` was given and such a source exists;
with no source at all the arguments go to ktrans verbatim; a dry run stops
before the workspace. -/
def ktransw_main (w : ExtWorld) (a : Args) : List Ev × Int :=
  let kl_files := a.ktrans_args.filter (fun s => endsWithS s KL_SUFFIX)
  if (a.dep_output || a.ignore_syshdrs) && !kl_files.isEmpty then
    depModeRun w a (kl_files.headD "")
  else if kl_files.isEmpty then
    ([.stdoutWrite banner, .runKtrans (KTRANS_BIN_NAME :: a.ktrans_args)], w.ktransRet)
  else if a.dry_run then ([], 0)
  else compileRun w a (kl_files.headD "")

/-! ## The temporary workspace (ktransw.py:414-475)

`TemporaryDirectory` removes its tree best-effort: `_rmtree` recurses into
subdirectories, swallows `OSError` of every single removal, and finally
attempts `rmdir` on the directory itself (which the OS refuses while the
directory is non-empty).  `cleanup` guards with `_closed` so the removal runs
at most once per acquisition, whichever exit paths invoke it. -/

mutual
/-- A directory entry: `removable` is false when the OS would refuse the
removal (e.g. a permission error). -/
inductive Entry where
  | file (nm : String) (removable : Bool)
  | dir (nm : String) (removable : Bool) (children : EntryList)
inductive EntryList where
  | nil
  | cons (e : Entry) (es : EntryList)
end

/-- Removal attempts of `_rmtree`, in order. -/
inductive FsOp where
  | removedFile (nm : String)
  | failedFile (nm : String)
  | removedDir (nm : String)
  | failedDir (nm : String)
deriving DecidableEq

def EntryList.isNil : EntryList → Bool
  | .nil => true
  | .cons _ _ => false

mutual
/-- Model of `_rmtree` (ktransw.py:458-475) on one entry: the attempts made and what
remains.  A file removal fails (is swallowed) when not removable; `rmdir`
succeeds only on a removable, emptied directory. -/
def rmtreeEntry : Entry → List FsOp × Option Entry
  | .file nm rem =>
    if rem then ([.removedFile nm], none) else ([.failedFile nm], some (.file nm rem))
  | .dir nm rem cs =>
    let r := rmtreeChildren cs
    if r.2.isNil && rem then (r.1 ++ [.removedDir nm], none)
    else (r.1 ++ [.failedDir nm], some (.dir nm rem r.2))

/-- The loop of `_rmtree` over `listdir`: every entry is attempted; a failure on
one never stops the iteration. -/
def rmtreeChildren : EntryList → List FsOp × EntryList
  | .nil => ([], .nil)
  | .cons e es =>
    let r1 := rmtreeEntry e
    let r2 := rmtreeChildren es
    (r1.1 ++ r2.1,
     match r1.2 with
     | none => r2.2
     | some e' => .cons e' r2.2)
end

/-- The mutable per-instance state of `TemporaryDirectory`. -/
structure TmpDirState where
  name : Option String
  closed : Bool
deriving DecidableEq

/-- Model of `cleanup` (ktransw.py:428-441): remove the tree only when a name exists
and the instance is not yet closed, then mark it closed.  `root` is the
directory's current content tree. -/
def tmpdirCleanup (t : TmpDirState) (root : Entry) : List FsOp × TmpDirState :=
  if t.name.isSome && !t.closed then
    ((rmtreeEntry root).1, { t with closed := true })
  else ([], t)

/-! ## The spec's per-line reading of the scanner

Modelled from the spec's words, for comparison with `scan_for_inc_stmts`:
lines are handled one at a time; a comment line never yields a reference; a
candidate line has the directive anchored at its start after optional
whitespace, and only the first whitespace-delimited token after the keyword
is taken. -/

/-- Split a text into its lines (separator convention: `splitLines` of a
text with a trailing newline ends in an empty line). -/
def splitLines : List Char → List (List Char)
  | [] => [[]]
  | c :: cs =>
    if c = '\n' then [] :: splitLines cs
    else
      match splitLines cs with
      | [] => [[c]]
      | l :: ls => (c :: l) :: ls

/-- Rejoin lines with newline separators. -/
def joinLines : List (List Char) → List Char
  | [] => []
  | [l] => l
  | l :: ls => l ++ '\n' :: joinLines ls

/-- A line whose first non-whitespace content is the comment marker `--`. -/
def commentLine (l : List Char) : Bool :=
  ['-', '-'].isPrefixOf (l.dropWhile isSpc)

/-- The reference one line yields under the spec's reading: none for comment
lines; else the first whitespace-delimited token after an anchored
`%INCLUDE`. -/
def lineRef (l : List Char) : Option (List Char) :=
  if commentLine l then none
  else if INCLUDE_KW.isPrefixOf (l.dropWhile isSpc) then
    match (l.dropWhile isSpc).drop 8 with
    | [] => none
    | c :: r2 =>
      if isSpc c then
        if (((c :: r2).dropWhile isSpc).takeWhile notSpc).isEmpty then none
        else some (((c :: r2).dropWhile isSpc).takeWhile notSpc)
      else none
  else none

/-- The spec's scanner: references line by line, in order. -/
def scanSpecLines (ls : List (List Char)) : List (List Char) :=
  ls.filterMap lineRef

/-- A line on which an anchored `%INCLUDE` immediately followed by whitespace
carries its reference token on that same line (the directive may also be
absent, or be directly followed by a non-whitespace character, in which case
it matches nothing at all).  On texts all of whose lines satisfy this, the
regex scanner agrees with the spec's per-line reading. -/
def lineOkB (l : List Char) : Bool :=
  if INCLUDE_KW.isPrefixOf (l.dropWhile isSpc) then
    match (l.dropWhile isSpc).drop 8 with
    | [] => false
    | c :: r2 => !(isSpc c) || !((c :: r2).dropWhile isSpc).isEmpty
  else true

/-! ### Basic list lemmas for the scanner equivalence -/

theorem dropWhile_head_false {p : Char → Bool} :
    ∀ {l : List Char} {x : Char} {xs : List Char},
      l.dropWhile p = x :: xs → p x = false := by
  intro l
  induction l with
  | nil => intro x xs h; simp at h
  | cons a l ih =>
    intro x xs h
    rw [List.dropWhile_cons] at h
    by_cases hp : p a
    · rw [if_pos hp] at h; exact ih h
    · rw [if_neg hp] at h
      cases h
      simpa using hp

theorem commentAhead_allSpc_append {l rest : List Char}
    (h : ∀ c ∈ l, isSpc c = true) :
    commentAhead (l ++ rest) = commentAhead rest := by
  induction l with
  | nil => rfl
  | cons c l ih =>
    have hc : isSpc c = true := h c (by simp)
    have hcd : c ≠ '-' := by
      intro he; subst he; simp [isSpc] at hc
    have ih' := ih (fun x hx => h x (by simp [hx]))
    cases hlr : l ++ rest with
    | nil =>
      obtain ⟨hl, hr⟩ := List.append_eq_nil.mp hlr
      subst hl; subst hr
      rfl
    | cons d t =>
      show commentAhead (c :: (l ++ rest)) = commentAhead rest
      rw [hlr]
      show ((c = '-' && d = '-') || (isSpc c && commentAhead (d :: t))) = commentAhead rest
      rw [← hlr, ih']
      simp [hcd, hc]

theorem dropWhile_allSpc_append {l rest : List Char}
    (h : ∀ c ∈ l, isSpc c = true) :
    (l ++ rest).dropWhile isSpc = rest.dropWhile isSpc := by
  induction l with
  | nil => rfl
  | cons c l ih =>
    have hc : isSpc c = true := h c (by simp)
    show ((c :: (l ++ rest)).dropWhile isSpc) = _
    rw [List.dropWhile_cons, if_pos hc]
    exact ih (fun x hx => h x (by simp [hx]))

/-- Splitting a list at its leading whitespace. -/
theorem spc_split (l : List Char) :
    l = l.takeWhile isSpc ++ l.dropWhile isSpc ∧
      ∀ c ∈ l.takeWhile isSpc, isSpc c = true :=
  ⟨(List.takeWhile_append_dropWhile isSpc l).symm,
   fun _ hc => List.mem_takeWhile_imp hc⟩

/-- When a line has non-whitespace content, the lookahead over the line plus
any continuation (not starting with a dash) answers exactly whether the line
is a comment line. -/
theorem commentAhead_cons₂ (c1 c2 : Char) (cs : List Char) :
    commentAhead (c1 :: c2 :: cs) =
      ((c1 = '-' && c2 = '-') || (isSpc c1 && commentAhead (c2 :: cs))) := rfl

theorem commentAhead_single (c : Char) : commentAhead [c] = false := rfl

theorem isPrefixOf_nil_left (l : List Char) : List.isPrefixOf ([] : List Char) l = true := by
  cases l <;> rfl

theorem isPrefixOf_dash_one (d : Char) : List.isPrefixOf ['-', '-'] [d] = false := by
  show (('-' == d) && List.isPrefixOf ['-'] ([] : List Char)) = false
  show (('-' == d) && false) = false
  rw [Bool.and_false]

theorem isPrefixOf_dash_two (d t0 : Char) (tt : List Char) :
    List.isPrefixOf ['-', '-'] (d :: t0 :: tt) = (('-' == d) && ('-' == t0)) := by
  show (('-' == d) && (('-' == t0) && List.isPrefixOf ([] : List Char) tt)) = _
  rw [isPrefixOf_nil_left, Bool.and_true]

theorem commentAhead_of_content {l rest : List Char} {d : Char} {t : List Char}
    (hm : l.dropWhile isSpc = d :: t) (hrest : rest.head? ≠ some '-') :
    commentAhead (l ++ rest) = commentLine l := by
  obtain ⟨hsplit, hspc⟩ := spc_split l
  have hd : isSpc d = false := dropWhile_head_false hm
  have h1 : l ++ rest = l.takeWhile isSpc ++ ((d :: t) ++ rest) := by
    conv_lhs => rw [hsplit, hm]
    rw [List.append_assoc]
  rw [h1, commentAhead_allSpc_append hspc]
  unfold commentLine
  rw [hm]
  cases t with
  | nil =>
    cases rest with
    | nil =>
      rw [List.append_nil, commentAhead_single, isPrefixOf_dash_one]
    | cons r0 rr =>
      have hr0 : r0 ≠ '-' := by
        intro he; subst he; simp at hrest
      show commentAhead (d :: r0 :: rr) = _
      rw [commentAhead_cons₂, hd, isPrefixOf_dash_one]
      simp only [Bool.false_and, Bool.or_false]
      rw [Bool.eq_iff_iff]
      simp [hr0]
  | cons t0 tt =>
    show commentAhead (d :: t0 :: (tt ++ rest)) = _
    rw [commentAhead_cons₂, hd, isPrefixOf_dash_two]
    simp only [Bool.false_and, Bool.or_false]
    rw [Bool.eq_iff_iff]
    simp only [Bool.and_eq_true, decide_eq_true_eq, beq_iff_eq]
    exact ⟨fun hb => ⟨hb.1.symm, hb.2.symm⟩, fun hb => ⟨hb.1.symm, hb.2.symm⟩⟩

/-- When a line has non-whitespace content, leading-whitespace removal over
the line plus a continuation stops inside the line. -/
theorem dropWhile_of_content {l rest : List Char} {d : Char} {t : List Char}
    (hm : l.dropWhile isSpc = d :: t) :
    (l ++ rest).dropWhile isSpc = (d :: t) ++ rest := by
  obtain ⟨hsplit, hspc⟩ := spc_split l
  have hd : isSpc d = false := dropWhile_head_false hm
  have h1 : l ++ rest = l.takeWhile isSpc ++ ((d :: t) ++ rest) := by
    conv_lhs => rw [hsplit, hm]
    rw [List.append_assoc]
  rw [h1, dropWhile_allSpc_append hspc]
  show ((d :: (t ++ rest)).dropWhile isSpc) = _
  rw [List.dropWhile_cons, if_neg (by simp [hd])]
  rfl

/-- A prefix test cannot reach past a character the pattern does not
contain. -/
theorem isPrefixOf_append_cons {kw : List Char} {c : Char} (hc : c ∉ kw) :
    ∀ (m X : List Char), kw.isPrefixOf (m ++ c :: X) = kw.isPrefixOf m := by
  induction kw with
  | nil => intro m X; cases m <;> rfl
  | cons k ks ih =>
    intro m X
    cases m with
    | nil =>
      show List.isPrefixOf (k :: ks) (c :: X) = List.isPrefixOf (k :: ks) []
      have hk : (k == c) = false := by
        simp only [beq_eq_false_iff_ne]
        intro he; exact hc (he ▸ List.mem_cons_self k ks)
      show (k == c && List.isPrefixOf ks X) = false
      rw [hk]
      rfl
    | cons a m' =>
      show List.isPrefixOf (k :: ks) (a :: (m' ++ c :: X)) = _
      show (k == a && List.isPrefixOf ks (m' ++ c :: X)) = (k == a && List.isPrefixOf ks m')
      rw [ih (fun hmem => hc (List.mem_cons_of_mem k hmem)) m' X]

theorem isPrefixOf_self_append (kw z : List Char) : kw.isPrefixOf (kw ++ z) = true := by
  rw [List.isPrefixOf_iff_prefix]
  exact List.prefix_append kw z

/-- Taking non-whitespace stops at the newline that ends the line. -/
theorem takeWhile_notSpc_append (a X : List Char) :
    (a ++ '\n' :: X).takeWhile notSpc = a.takeWhile notSpc := by
  induction a with
  | nil =>
    show ('\n' :: X).takeWhile notSpc = []
    rw [List.takeWhile_cons]
    simp [notSpc, isSpc]
  | cons c a ih =>
    show ((c :: (a ++ '\n' :: X)).takeWhile notSpc) = _
    rw [List.takeWhile_cons, List.takeWhile_cons, ih]

theorem dropLine_append {a X : List Char} (h : '\n' ∉ a) :
    dropLine (a ++ '\n' :: X) = X := by
  induction a with
  | nil => show dropLine ('\n' :: X) = X; simp [dropLine]
  | cons c a ih =>
    have hc : c ≠ '\n' := fun he => h (he ▸ List.mem_cons_self c a)
    show dropLine (c :: (a ++ '\n' :: X)) = X
    simp only [dropLine, if_neg hc]
    exact ih (fun hmem => h (List.mem_cons_of_mem c hmem))

theorem dropLine_eq_nil {a : List Char} (h : '\n' ∉ a) : dropLine a = [] := by
  induction a with
  | nil => rfl
  | cons c a ih =>
    have hc : c ≠ '\n' := fun he => h (he ▸ List.mem_cons_self c a)
    simp only [dropLine, if_neg hc]
    exact ih (fun hmem => h (List.mem_cons_of_mem c hmem))

theorem tokOf_congr {cs ds : List Char}
    (h2 : cs.dropWhile isSpc = ds.dropWhile isSpc) : tokOf cs = tokOf ds := by
  unfold tokOf; rw [h2]

theorem restOf_congr {cs ds : List Char}
    (h2 : cs.dropWhile isSpc = ds.dropWhile isSpc) : restOf cs = restOf ds := by
  unfold restOf; rw [tokOf_congr h2, h2]

/-- The attempt `tryMatch` only looks at the lookahead answer and the text after leading
whitespace. -/
theorem tryMatch_congr {cs ds : List Char}
    (h1 : commentAhead cs = commentAhead ds)
    (h2 : cs.dropWhile isSpc = ds.dropWhile isSpc) :
    tryMatch cs = tryMatch ds := by
  unfold tryMatch
  rw [h1, h2, tokOf_congr h2, restOf_congr h2]

theorem scanAux_none_ne {cs : List Char} (hne : cs ≠ []) (h : tryMatch cs = none) :
    scanAux cs = scanAux (dropLine cs) := by
  cases cs with
  | nil => exact absurd rfl hne
  | cons c cs' => exact scanAux_none h

/-! ### Characterisations of one attempt, one line -/

theorem tryMatch_comment {cs : List Char} (h : commentAhead cs = true) :
    tryMatch cs = none := by
  unfold tryMatch
  rw [h]
  simp

theorem tryMatch_nokw {cs : List Char} (h1 : commentAhead cs = false)
    (h2 : INCLUDE_KW.isPrefixOf (cs.dropWhile isSpc) = false) :
    tryMatch cs = none := by
  unfold tryMatch
  rw [h1, h2]
  simp

theorem tryMatch_char {cs : List Char} {c : Char} {r : List Char}
    (h1 : commentAhead cs = false)
    (hkw : INCLUDE_KW.isPrefixOf (cs.dropWhile isSpc) = true)
    (hdr : (cs.dropWhile isSpc).drop 8 = c :: r) :
    tryMatch cs =
      if isSpc c then
        (if (tokOf cs).isEmpty then none else some (tokOf cs, restOf cs))
      else none := by
  unfold tryMatch
  rw [h1, hkw, hdr]
  simp

theorem lineRef_comment {l : List Char} (h : commentLine l = true) :
    lineRef l = none := by
  unfold lineRef
  rw [h]
  simp

theorem lineRef_nokw {l : List Char} (h1 : commentLine l = false)
    (h2 : INCLUDE_KW.isPrefixOf (l.dropWhile isSpc) = false) :
    lineRef l = none := by
  unfold lineRef
  rw [h1, h2]
  simp

theorem lineRef_char {l : List Char} {c : Char} {r : List Char}
    (h1 : commentLine l = false)
    (hkw : INCLUDE_KW.isPrefixOf (l.dropWhile isSpc) = true)
    (hdr : (l.dropWhile isSpc).drop 8 = c :: r) :
    lineRef l =
      if isSpc c then
        (if (((c :: r).dropWhile isSpc).takeWhile notSpc).isEmpty then none
         else some (((c :: r).dropWhile isSpc).takeWhile notSpc))
      else none := by
  unfold lineRef
  rw [h1, hkw, hdr]
  simp

theorem lineOkB_char {l : List Char} {c : Char} {r : List Char}
    (hkw : INCLUDE_KW.isPrefixOf (l.dropWhile isSpc) = true)
    (hdr : (l.dropWhile isSpc).drop 8 = c :: r) :
    lineOkB l = (!(isSpc c) || !((c :: r).dropWhile isSpc).isEmpty) := by
  unfold lineOkB
  rw [hkw, hdr]
  simp

theorem lineOkB_nil_drop {l : List Char}
    (hkw : INCLUDE_KW.isPrefixOf (l.dropWhile isSpc) = true)
    (hdr : (l.dropWhile isSpc).drop 8 = []) :
    lineOkB l = false := by
  unfold lineOkB
  rw [hkw, hdr]
  simp

theorem lineRef_allSpc {l : List Char} (hm : l.dropWhile isSpc = []) :
    lineRef l = none := by
  have hcl : commentLine l = false := by
    unfold commentLine
    rw [hm]
    rfl
  refine lineRef_nokw hcl ?_
  rw [hm]
  rfl

/-! ### One line of the scan -/

/-- On a well-behaved line (`lineOkB`), the regex scanner consumes exactly
the line and yields exactly the spec's per-line reference. -/
theorem scanAux_line_step (l X : List Char) (hnl : '\n' ∉ l) (hok : lineOkB l = true) :
    scanAux (l ++ '\n' :: X) =
      (match lineRef l with
       | some tk => [tk]
       | none => []) ++ scanAux X := by
  have hne : l ++ '\n' :: X ≠ [] := by simp
  cases hm : l.dropWhile isSpc with
  | nil =>
    have hspc : ∀ c ∈ l, isSpc c = true := List.dropWhile_eq_nil_iff.mp hm
    have h1 : commentAhead (l ++ '\n' :: X) = commentAhead X := by
      rw [commentAhead_allSpc_append hspc]
      exact commentAhead_allSpc_append (l := ['\n'])
        (by intro c hc; simp at hc; subst hc; decide)
    have h2 : (l ++ '\n' :: X).dropWhile isSpc = X.dropWhile isSpc := by
      rw [dropWhile_allSpc_append hspc]
      show (('\n' :: X).dropWhile isSpc) = _
      rw [List.dropWhile_cons, if_pos (by decide)]
    have htm : tryMatch (l ++ '\n' :: X) = tryMatch X := tryMatch_congr h1 h2
    rw [lineRef_allSpc hm]
    show scanAux (l ++ '\n' :: X) = scanAux X
    cases hx : tryMatch X with
    | some p =>
      cases p with
      | mk tok rest => rw [scanAux_some (htm.trans hx), scanAux_some hx]
    | none =>
      rw [scanAux_none_ne hne (htm.trans hx), dropLine_append hnl]
  | cons d t =>
    by_cases hcl : commentLine l = true
    · have hca : commentAhead (l ++ '\n' :: X) = true := by
        rw [commentAhead_of_content hm (by simp), hcl]
      rw [lineRef_comment hcl]
      show scanAux (l ++ '\n' :: X) = scanAux X
      rw [scanAux_none_ne hne (tryMatch_comment hca), dropLine_append hnl]
    · have hclf : commentLine l = false := by simpa using hcl
      have hca : commentAhead (l ++ '\n' :: X) = false := by
        rw [commentAhead_of_content hm (by simp), hclf]
      have hdw : (l ++ '\n' :: X).dropWhile isSpc = (d :: t) ++ '\n' :: X :=
        dropWhile_of_content hm
      by_cases hkw : INCLUDE_KW.isPrefixOf (d :: t) = true
      · obtain ⟨u, hu⟩ := List.isPrefixOf_iff_prefix.mp hkw
        have h8 : (8 : Nat) = INCLUDE_KW.length := rfl
        have hkw2 : INCLUDE_KW.isPrefixOf ((l ++ '\n' :: X).dropWhile isSpc) = true := by
          rw [hdw, ← hu, List.append_assoc]
          exact isPrefixOf_self_append _ _
        have hdr8 : ((l ++ '\n' :: X).dropWhile isSpc).drop 8 = u ++ '\n' :: X := by
          rw [hdw, ← hu, List.append_assoc, h8, List.drop_left]
        have hmdr8 : (l.dropWhile isSpc).drop 8 = u := by
          rw [hm, ← hu, h8, List.drop_left]
        cases u with
        | nil =>
          rw [lineOkB_nil_drop (by rw [hm]; exact hkw) hmdr8] at hok
          exact absurd hok (by simp)
        | cons c u' =>
          have hdr8' : ((l ++ '\n' :: X).dropWhile isSpc).drop 8 = c :: (u' ++ '\n' :: X) := by
            rw [hdr8, List.cons_append]
          by_cases hsc : isSpc c = true
          · cases heq : (c :: u').dropWhile isSpc with
            | nil =>
              rw [lineOkB_char (by rw [hm]; exact hkw) hmdr8, hsc, heq] at hok
              simp at hok
            | cons e wtl =>
              have he : isSpc e = false := dropWhile_head_false heq
              have hne2 : notSpc e = true := by simp [notSpc, he]
              have htok_cons : (e :: wtl).takeWhile notSpc = e :: wtl.takeWhile notSpc := by
                rw [List.takeWhile_cons, if_pos hne2]
              have hdw2 : ((c :: u') ++ '\n' :: X).dropWhile isSpc = (e :: wtl) ++ '\n' :: X :=
                dropWhile_of_content heq
              have htokOf : tokOf (l ++ '\n' :: X) = (e :: wtl).takeWhile notSpc := by
                unfold tokOf
                rw [hdr8, hdw2, takeWhile_notSpc_append]
              have hlen : ((e :: wtl).takeWhile notSpc).length ≤ (e :: wtl).length :=
                (List.takeWhile_sublist _).length_le
              have hsub : List.Sublist (e :: wtl) l := by
                have s2 : List.Sublist (e :: wtl) (c :: u') := by
                  rw [← heq]; exact List.dropWhile_sublist _
                have s3 : List.Sublist (c :: u') (d :: t) := by
                  rw [← hu]; exact List.sublist_append_right _ _
                have s4 : List.Sublist (d :: t) l := by
                  rw [← hm]; exact List.dropWhile_sublist _
                exact (s2.trans s3).trans s4
              have hnl2 : '\n' ∉ (e :: wtl).drop ((e :: wtl).takeWhile notSpc).length := by
                intro hmem
                exact hnl (hsub.subset ((List.drop_sublist _ _).subset hmem))
              have hrestOf : restOf (l ++ '\n' :: X) = X := by
                unfold restOf
                rw [htokOf, hdr8, hdw2, List.drop_append_of_le_length hlen,
                  dropLine_append hnl2]
              have hie : (tokOf (l ++ '\n' :: X)).isEmpty = false := by
                rw [htokOf, htok_cons]
                rfl
              have htmm : tryMatch (l ++ '\n' :: X) =
                  some ((e :: wtl).takeWhile notSpc, X) := by
                rw [tryMatch_char hca hkw2 hdr8', if_pos hsc, hie]
                rw [htokOf, hrestOf]
                simp
              have hlr : lineRef l = some (e :: wtl.takeWhile notSpc) := by
                rw [lineRef_char hclf (by rw [hm]; exact hkw) hmdr8, if_pos hsc, heq,
                  htok_cons]
                simp
              rw [scanAux_some htmm, hlr, htok_cons]
              rfl
          · have hscf : isSpc c = false := by simpa using hsc
            have htmn : tryMatch (l ++ '\n' :: X) = none := by
              rw [tryMatch_char hca hkw2 hdr8', hscf]
              simp
            have hlr : lineRef l = none := by
              rw [lineRef_char hclf (by rw [hm]; exact hkw) hmdr8, hscf]
              simp
            rw [hlr]
            show scanAux (l ++ '\n' :: X) = scanAux X
            rw [scanAux_none_ne hne htmn, dropLine_append hnl]
      · have hkwf : INCLUDE_KW.isPrefixOf (d :: t) = false := by
          revert hkw; cases INCLUDE_KW.isPrefixOf (d :: t) <;> simp
        have hkw2 : INCLUDE_KW.isPrefixOf ((l ++ '\n' :: X).dropWhile isSpc) = false := by
          rw [hdw, isPrefixOf_append_cons (by decide) (d :: t) X]
          exact hkwf
        rw [lineRef_nokw hclf (by rw [hm]; exact hkwf)]
        show scanAux (l ++ '\n' :: X) = scanAux X
        rw [scanAux_none_ne hne (tryMatch_nokw hca hkw2), dropLine_append hnl]

/-- The last (unterminated) line of a scan behaves like any other. -/
theorem scanAux_line_last (l : List Char) (hnl : '\n' ∉ l) (hok : lineOkB l = true) :
    scanAux l =
      (match lineRef l with
       | some tk => [tk]
       | none => []) := by
  cases hm : l.dropWhile isSpc with
  | nil =>
    have hca : commentAhead l = false := by
      have := @commentAhead_allSpc_append l [] (List.dropWhile_eq_nil_iff.mp hm)
      rw [List.append_nil] at this
      rw [this]
      rfl
    have htmn : tryMatch l = none := tryMatch_nokw hca (by rw [hm]; rfl)
    rw [lineRef_allSpc hm]
    cases l with
    | nil => rfl
    | cons c ls =>
      rw [scanAux_none_ne (by simp) htmn, dropLine_eq_nil hnl, scanAux_nil]
  | cons d t =>
    have hlne : l ≠ [] := by
      intro h
      rw [h] at hm
      simp at hm
    by_cases hcl : commentLine l = true
    · have hca : commentAhead l = true := by
        have := @commentAhead_of_content l [] d t hm (by simp)
        rw [List.append_nil] at this
        rw [this, hcl]
      rw [lineRef_comment hcl, scanAux_none_ne hlne (tryMatch_comment hca),
        dropLine_eq_nil hnl, scanAux_nil]
    · have hclf : commentLine l = false := by simpa using hcl
      have hca : commentAhead l = false := by
        have := @commentAhead_of_content l [] d t hm (by simp)
        rw [List.append_nil] at this
        rw [this, hclf]
      by_cases hkw : INCLUDE_KW.isPrefixOf (d :: t) = true
      · obtain ⟨u, hu⟩ := List.isPrefixOf_iff_prefix.mp hkw
        have h8 : (8 : Nat) = INCLUDE_KW.length := rfl
        have hmdr8 : (l.dropWhile isSpc).drop 8 = u := by
          rw [hm, ← hu, h8, List.drop_left]
        cases u with
        | nil =>
          rw [lineOkB_nil_drop (by rw [hm]; exact hkw) hmdr8] at hok
          exact absurd hok (by simp)
        | cons c u' =>
          by_cases hsc : isSpc c = true
          · cases heq : (c :: u').dropWhile isSpc with
            | nil =>
              rw [lineOkB_char (by rw [hm]; exact hkw) hmdr8, hsc, heq] at hok
              simp at hok
            | cons e wtl =>
              have he : isSpc e = false := dropWhile_head_false heq
              have hne2 : notSpc e = true := by simp [notSpc, he]
              have htok_cons : (e :: wtl).takeWhile notSpc = e :: wtl.takeWhile notSpc := by
                rw [List.takeWhile_cons, if_pos hne2]
              have htokOf : tokOf l = (e :: wtl).takeWhile notSpc := by
                unfold tokOf
                rw [hmdr8, heq]
              have hsub : List.Sublist (e :: wtl) l := by
                have s2 : List.Sublist (e :: wtl) (c :: u') := by
                  rw [← heq]; exact List.dropWhile_sublist _
                have s3 : List.Sublist (c :: u') (d :: t) := by
                  rw [← hu]; exact List.sublist_append_right _ _
                have s4 : List.Sublist (d :: t) l := by
                  rw [← hm]; exact List.dropWhile_sublist _
                exact (s2.trans s3).trans s4
              have hnl2 : '\n' ∉ (e :: wtl).drop ((e :: wtl).takeWhile notSpc).length := by
                intro hmem
                exact hnl (hsub.subset ((List.drop_sublist _ _).subset hmem))
              have hrestOf : restOf l = [] := by
                unfold restOf
                rw [htokOf, hmdr8, heq, dropLine_eq_nil hnl2]
              have hie : (tokOf l).isEmpty = false := by
                rw [htokOf, htok_cons]
                rfl
              have htmm : tryMatch l = some ((e :: wtl).takeWhile notSpc, []) := by
                rw [tryMatch_char hca (by rw [hm]; exact hkw) hmdr8, if_pos hsc, hie]
                rw [htokOf, hrestOf]
                simp
              have hlr : lineRef l = some (e :: wtl.takeWhile notSpc) := by
                rw [lineRef_char hclf (by rw [hm]; exact hkw) hmdr8, if_pos hsc, heq,
                  htok_cons]
                simp
              rw [scanAux_some htmm, hlr, htok_cons, scanAux_nil]
          · have hscf : isSpc c = false := by simpa using hsc
            have htmn : tryMatch l = none := by
              rw [tryMatch_char hca (by rw [hm]; exact hkw) hmdr8, hscf]
              simp
            have hlr : lineRef l = none := by
              rw [lineRef_char hclf (by rw [hm]; exact hkw) hmdr8, hscf]
              simp
            rw [hlr, scanAux_none_ne hlne htmn, dropLine_eq_nil hnl, scanAux_nil]
      · have hkwf : INCLUDE_KW.isPrefixOf (d :: t) = false := by
          revert hkw; cases INCLUDE_KW.isPrefixOf (d :: t) <;> simp
        rw [lineRef_nokw hclf (by rw [hm]; exact hkwf),
          scanAux_none_ne hlne (tryMatch_nokw hca (by rw [hm]; exact hkwf)),
          dropLine_eq_nil hnl, scanAux_nil]

/-! ### Lines of a text -/

theorem splitLines_ne_nil (cs : List Char) : splitLines cs ≠ [] := by
  cases cs with
  | nil => simp [splitLines]
  | cons c cs =>
    unfold splitLines
    by_cases h : c = '\n'
    · simp [h]
    · rw [if_neg h]
      cases splitLines cs <;> simp

theorem joinLines_splitLines (cs : List Char) : joinLines (splitLines cs) = cs := by
  induction cs with
  | nil => rfl
  | cons c cs ih =>
    unfold splitLines
    by_cases h : c = '\n'
    · rw [if_pos h]
      cases hs : splitLines cs with
      | nil => exact absurd hs (splitLines_ne_nil cs)
      | cons l ls =>
        show joinLines ([] :: l :: ls) = c :: cs
        show [] ++ '\n' :: joinLines (l :: ls) = c :: cs
        rw [List.nil_append, ← hs, ih, h]
    · rw [if_neg h]
      cases hs : splitLines cs with
      | nil => exact absurd hs (splitLines_ne_nil cs)
      | cons l ls =>
        cases ls with
        | nil =>
          show joinLines [c :: l] = c :: cs
          show c :: l = c :: cs
          rw [hs] at ih
          have : joinLines [l] = cs := ih
          rw [← this]
          rfl
        | cons l2 ls2 =>
          show joinLines ((c :: l) :: l2 :: ls2) = c :: cs
          show (c :: l) ++ '\n' :: joinLines (l2 :: ls2) = c :: cs
          rw [hs] at ih
          have : l ++ '\n' :: joinLines (l2 :: ls2) = cs := ih
          rw [List.cons_append, this]

theorem splitLines_no_newline (cs : List Char) :
    ∀ l ∈ splitLines cs, '\n' ∉ l := by
  induction cs with
  | nil =>
    intro l hl
    simp [splitLines] at hl
    simp [hl]
  | cons c cs ih =>
    intro l hl
    unfold splitLines at hl
    by_cases h : c = '\n'
    · rw [if_pos h] at hl
      rcases List.mem_cons.mp hl with h1 | h1
      · simp [h1]
      · exact ih l h1
    · rw [if_neg h] at hl
      cases hs : splitLines cs with
      | nil => exact absurd hs (splitLines_ne_nil cs)
      | cons l0 ls =>
        rw [hs] at hl
        rcases List.mem_cons.mp hl with h1 | h1
        · subst h1
          intro hmem
          rcases List.mem_cons.mp hmem with h2 | h2
          · exact h h2.symm
          · exact ih l0 (hs ▸ List.mem_cons_self l0 ls) h2
        · exact ih l (hs ▸ List.mem_cons_of_mem l0 h1)

/-- The induction over the lines: on a text all of whose lines are
well-behaved, the regex scanner is the spec's per-line scanner. -/
theorem scanAux_joinLines :
    ∀ ls : List (List Char), (∀ l ∈ ls, '\n' ∉ l) → (∀ l ∈ ls, lineOkB l = true) →
      scanAux (joinLines ls) = scanSpecLines ls := by
  intro ls
  induction ls with
  | nil => intro _ _; rfl
  | cons l ls ih =>
    intro hnl hok
    cases ls with
    | nil =>
      show scanAux (joinLines [l]) = _
      show scanAux l = _
      rw [scanAux_line_last l (hnl l (by simp)) (hok l (by simp))]
      show _ = List.filterMap lineRef [l]
      rw [List.filterMap_cons]
      cases lineRef l <;> rfl
    | cons l2 ls2 =>
      show scanAux (l ++ '\n' :: joinLines (l2 :: ls2)) = _
      rw [scanAux_line_step l (joinLines (l2 :: ls2)) (hnl l (by simp)) (hok l (by simp))]
      rw [ih (fun x hx => hnl x (List.mem_cons_of_mem l hx))
        (fun x hx => hok x (List.mem_cons_of_mem l hx))]
      show _ = List.filterMap lineRef (l :: l2 :: ls2)
      rw [List.filterMap_cons]
      cases lineRef l <;> rfl

/-! ## Resolver lemmas -/

theorem find_hdr_eq_some_iff (fs : List String) (hdr : String) :
    ∀ (dirs : List String) (d : String),
      find_hdr_in_incdirs fs hdr dirs = some d ↔
        ∃ i, ∃ hi : i < dirs.length,
          dirs.get ⟨i, hi⟩ = d ∧ fs.contains (joinPath d hdr) = true ∧
          ∀ d2 ∈ dirs.take i, fs.contains (joinPath d2 hdr) = false := by
  intro dirs
  induction dirs with
  | nil =>
    intro d
    constructor
    · intro h
      exact absurd h (by simp [find_hdr_in_incdirs])
    · rintro ⟨i, hi, -⟩
      exact absurd hi (by simp)
  | cons d0 ds ih =>
    intro d
    constructor
    · intro h
      unfold find_hdr_in_incdirs at h
      by_cases h0 : fs.contains (joinPath d0 hdr) = true
      · rw [if_pos h0] at h
        have hd : d0 = d := Option.some_inj.mp h
        subst hd
        exact ⟨0, by simp, rfl, h0, by simp⟩
      · have h0f : fs.contains (joinPath d0 hdr) = false := by
          revert h0; cases fs.contains (joinPath d0 hdr) <;> simp
        rw [if_neg (by rw [h0f]; simp)] at h
        obtain ⟨i, hi, hget, hcont, hpre⟩ := (ih d).mp h
        refine ⟨i + 1, by simpa using Nat.succ_lt_succ hi, by simpa using hget, hcont, ?_⟩
        intro d2 hd2
        rw [List.take_succ_cons] at hd2
        rcases List.mem_cons.mp hd2 with h1 | h1
        · subst h1; exact h0f
        · exact hpre d2 h1
    · rintro ⟨i, hi, hget, hcont, hpre⟩
      unfold find_hdr_in_incdirs
      cases i with
      | zero =>
        have hd : d0 = d := by simpa using hget
        subst hd
        rw [if_pos hcont]
      | succ i =>
        have h0 : fs.contains (joinPath d0 hdr) = false := by
          apply hpre
          rw [List.take_succ_cons]
          exact List.mem_cons_self _ _
        rw [if_neg (by rw [h0]; simp)]
        apply (ih d).mpr
        refine ⟨i, by simpa using hi, by simpa using hget, hcont, ?_⟩
        intro d2 hd2
        apply hpre
        rw [List.take_succ_cons]
        exact List.mem_cons_of_mem _ hd2

theorem find_hdr_eq_none_iff (fs : List String) (hdr : String) :
    ∀ dirs : List String,
      find_hdr_in_incdirs fs hdr dirs = none ↔
        ∀ d ∈ dirs, fs.contains (joinPath d hdr) = false := by
  intro dirs
  induction dirs with
  | nil => simp [find_hdr_in_incdirs]
  | cons d0 ds ih =>
    unfold find_hdr_in_incdirs
    by_cases h0 : fs.contains (joinPath d0 hdr) = true
    · rw [if_pos h0]
      constructor
      · intro h; exact absurd h (by simp)
      · intro h
        have := h d0 (List.mem_cons_self _ _)
        rw [h0] at this
        exact absurd this (by simp)
    · have h0f : fs.contains (joinPath d0 hdr) = false := by
        revert h0; cases fs.contains (joinPath d0 hdr) <;> simp
      rw [if_neg (by rw [h0f]; simp), ih]
      constructor
      · intro h d2 hd2
        rcases List.mem_cons.mp hd2 with h1 | h1
        · subst h1; exact h0f
        · exact h d2 h1
      · intro h d2 hd2
        exact h d2 (List.mem_cons_of_mem _ hd2)

/-- C1: an absolute reference resolves to itself with no search (whatever the
filesystem and search paths); a relative one resolves to the join with the
first directory (in list order) containing a file of that name, and to
NotFound exactly when no directory in the list contains it. -/
theorem C1_resolver_first_match (fs dirs : List String) (hdr : String) :
    (isabs hdr = true → ∀ fs2 dirs2 : List String, resolveHdr fs2 dirs2 hdr = some hdr) ∧
    (isabs hdr = false →
      (∀ p, resolveHdr fs dirs hdr = some p ↔
        ∃ i, ∃ hi : i < dirs.length,
          fs.contains (joinPath (dirs.get ⟨i, hi⟩) hdr) = true ∧
          (∀ d2 ∈ dirs.take i, fs.contains (joinPath d2 hdr) = false) ∧
          p = joinPath (dirs.get ⟨i, hi⟩) hdr) ∧
      (resolveHdr fs dirs hdr = none ↔
        ∀ d ∈ dirs, fs.contains (joinPath d hdr) = false)) := by
  constructor
  · intro habs fs2 dirs2
    unfold resolveHdr
    rw [if_pos habs]
  · intro habs
    have hres : resolveHdr fs dirs hdr =
        match find_hdr_in_incdirs fs hdr dirs with
        | some d => some (joinPath d hdr)
        | none => none := by
      unfold resolveHdr
      rw [if_neg (by simp [habs])]
    constructor
    · intro p
      rw [hres]
      cases hfind : find_hdr_in_incdirs fs hdr dirs with
      | some d =>
        obtain ⟨i, hi, hget, hcont, hpre⟩ := (find_hdr_eq_some_iff fs hdr dirs d).mp hfind
        constructor
        · intro hp
          have hp2 : p = joinPath d hdr := (Option.some_inj.mp hp).symm
          exact ⟨i, hi, by rw [hget]; exact hcont, hpre, by rw [hget, ← hp2]⟩
        · rintro ⟨j, hj, hcont2, hpre2, hp⟩
          have : find_hdr_in_incdirs fs hdr dirs = some (dirs.get ⟨j, hj⟩) :=
            (find_hdr_eq_some_iff fs hdr dirs _).mpr ⟨j, hj, rfl, hcont2, hpre2⟩
          rw [hfind] at this
          have hd : d = dirs.get ⟨j, hj⟩ := Option.some_inj.mp this
          rw [hp, ← hd]
      | none =>
        have hall := (find_hdr_eq_none_iff fs hdr dirs).mp hfind
        constructor
        · intro hp; exact absurd hp (by simp)
        · rintro ⟨j, hj, hcont2, -, -⟩
          have := hall (dirs.get ⟨j, hj⟩) (List.get_mem dirs j hj)
          rw [hcont2] at this
          exact absurd this (by simp)
    · rw [hres]
      cases hfind : find_hdr_in_incdirs fs hdr dirs with
      | some d =>
        constructor
        · intro h; exact absurd h (by simp)
        · intro hall
          have := (find_hdr_eq_none_iff fs hdr dirs).mpr hall
          rw [hfind] at this
          exact absurd this (by simp)
      | none =>
        simpa using (find_hdr_eq_none_iff fs hdr dirs).mp hfind

theorem C1_resolver_first_match_witness :
    (isabs "h.kl" = false) ∧
    resolveHdr ["b/h.kl"] ["a", "b"] "h.kl" = some "b/h.kl" := by
  have h := (C1_resolver_first_match ["b/h.kl"] ["a", "b"] "h.kl").2 (by decide)
  refine ⟨by decide, (h.1 "b/h.kl").mpr ?_⟩
  exact ⟨1, by decide, by decide, by decide, by decide⟩

/-! ## System headers, tolerated missing headers, dependency order -/

theorem collectDeps_cons (fs dirs : List String) (iS iM : Bool) (h : String)
    (hs : List String) :
    collectDeps fs dirs iS iM (h :: hs) =
      match processHeader fs dirs iS iM h with
      | .skipped => collectDeps fs dirs iS iM hs
      | .dep p => (collectDeps fs dirs iS iM hs).map (fun ds => p :: ds)
      | .fatal h0 => .error h0 := rfl

/-- C5: under `-MM`, an exact (case-sensitive) member of the fixed allow-list
is skipped outright — the result does not depend on the filesystem or search
paths, so resolution is never attempted — and a name outside the list is
never classified as a system header. -/
theorem C5_system_header_policy (hdr : String) :
    (hdr ∈ SYSTEM_HEADERS →
      ∀ (fs dirs : List String) (iM : Bool),
        processHeader fs dirs true iM hdr = .skipped) ∧
    (hdr ∉ SYSTEM_HEADERS → is_system_header hdr = false) := by
  constructor
  · intro hmem fs dirs iM
    have hsys : is_system_header hdr = true := by
      unfold is_system_header
      simpa using hmem
    unfold processHeader
    rw [if_pos (by rw [hsys]; rfl)]
  · intro hmem
    unfold is_system_header
    simpa using hmem

theorem C5_system_header_policy_witness :
    ("klersys.kl" ∈ SYSTEM_HEADERS ∧
      processHeader ["d/klersys.kl"] ["d"] true false "klersys.kl" = .skipped) ∧
    ("myprog.kl" ∉ SYSTEM_HEADERS ∧ is_system_header "myprog.kl" = false) :=
  ⟨⟨by decide, (C5_system_header_policy "klersys.kl").1 (by decide) ["d/klersys.kl"] ["d"] false⟩,
   ⟨by decide, (C5_system_header_policy "myprog.kl").2 (by decide)⟩⟩

/-- C9: a relative reference that resolves nowhere while `-MG` is set raises
no error: it becomes a dependency under its original unresolved name, at its
encounter position (the head of the output for the remaining headers). -/
theorem C9_tolerated_missing (fs dirs : List String) (iS : Bool) (hdr : String)
    (rest : List String)
    (habs : isabs hdr = false)
    (hfind : find_hdr_in_incdirs fs hdr dirs = none)
    (hsys : iS = true → is_system_header hdr = false) :
    processHeader fs dirs iS true hdr = .dep hdr ∧
    collectDeps fs dirs iS true (hdr :: rest) =
      (collectDeps fs dirs iS true rest).map (fun ds => hdr :: ds) := by
  have hres : resolveHdr fs dirs hdr = none := by
    unfold resolveHdr
    rw [if_neg (by rw [habs]; simp), hfind]
  have hc : (iS && is_system_header hdr) = false := by
    cases iS with
    | true => rw [hsys rfl]; rfl
    | false => rfl
  have hp : processHeader fs dirs iS true hdr = .dep hdr := by
    unfold processHeader
    rw [if_neg (by rw [hc]; simp), hres]
    rfl
  refine ⟨hp, ?_⟩
  rw [collectDeps_cons, hp]

theorem C9_tolerated_missing_witness :
    (isabs "gen.kl" = false ∧
      find_hdr_in_incdirs [] "gen.kl" ["inc"] = none) ∧
    processHeader [] ["inc"] false true "gen.kl" = .dep "gen.kl" ∧
    collectDeps [] ["inc"] false true ["gen.kl"] = .ok ["gen.kl"] := by
  have h := C9_tolerated_missing [] ["inc"] false "gen.kl" [] (by decide) (by decide)
    (fun hx => absurd hx (by decide))
  exact ⟨⟨by decide, by decide⟩, h.1, by rw [h.2]; rfl⟩

/-- C4 (amended): the emitted dependency list preserves the encounter order
and the multiplicity of the scanned includes — no deduplication happens, so
a header included twice contributes its path twice. -/
theorem C4_deps_order_multiplicity (fs dirs : List String) (iS iM : Bool) :
    ∀ incs : List String,
      (∀ h ∈ incs, ∀ h0, processHeader fs dirs iS iM h ≠ .fatal h0) →
      collectDeps fs dirs iS iM incs = .ok (incs.filterMap (fun h =>
        match processHeader fs dirs iS iM h with
        | .dep p => some p
        | _ => none)) := by
  intro incs
  induction incs with
  | nil => intro _; rfl
  | cons h hs ih =>
    intro hno
    rw [collectDeps_cons, List.filterMap_cons]
    cases hp : processHeader fs dirs iS iM h with
    | skipped => exact ih (fun x hx => hno x (List.mem_cons_of_mem h hx))
    | dep p =>
      rw [ih (fun x hx => hno x (List.mem_cons_of_mem h hx))]
      rfl
    | fatal h0 =>
      exact absurd hp (hno h (List.mem_cons_self h hs) h0)

theorem C4_deps_order_multiplicity_witness :
    (∀ h ∈ ["/a/x.kl", "/a/x.kl"], ∀ h0,
        processHeader [] [] false false h ≠ HdrResult.fatal h0) ∧
    collectDeps [] [] false false ["/a/x.kl", "/a/x.kl"] = .ok ["/a/x.kl", "/a/x.kl"] := by
  have hno : ∀ h ∈ ["/a/x.kl", "/a/x.kl"], ∀ h0,
      processHeader [] [] false false h ≠ HdrResult.fatal h0 := by
    intro h hh h0
    have he : h = "/a/x.kl" := by
      rcases List.mem_cons.mp hh with h1 | h1
      · exact h1
      · simpa using h1
    subst he
    have hph : processHeader [] [] false false "/a/x.kl" = .dep "/a/x.kl" := rfl
    rw [hph]
    simp
  refine ⟨hno, ?_⟩
  rw [C4_deps_order_multiplicity [] [] false false ["/a/x.kl", "/a/x.kl"] hno]
  rfl

/-- C4 is false as stated: a source including the same header twice yields an
emitted rule in which that dependency path occurs twice. -/
theorem C4_counterexample :
    ktransw_main
      { fs := [], contents := fun _ => "%INCLUDE /a/x.kl\n%INCLUDE /a/x.kl\n",
        dname := "", gppRet := 0, gppStderr := "", ktransRet := 0, ktransOut := "" }
      { verbose := false, quiet := false, dry_run := false, dep_output := true,
        ignore_syshdrs := false, dep_target := none, dep_fname := none,
        ignore_missing_hdrs := false, add_phony_tgt_for_deps := false,
        include_dirs := [], ktrans_args := ["m.kl"] }
      = ([.stdoutWrite "m.pc : /a/x.kl \\\n\t/a/x.kl\n"], 0) ∧
    (scan_for_inc_stmts "%INCLUDE /a/x.kl\n%INCLUDE /a/x.kl\n").count "/a/x.kl" = 2 :=
  ⟨rfl, rfl⟩

/-! ## Fatal missing headers (dependency mode) -/

theorem processHeader_fatal (fs dirs : List String) (iS : Bool) (hdr : String)
    (habs : isabs hdr = false)
    (hsys : iS = true → is_system_header hdr = false)
    (hfind : find_hdr_in_incdirs fs hdr dirs = none) :
    processHeader fs dirs iS false hdr = .fatal hdr := by
  have hres : resolveHdr fs dirs hdr = none := by
    unfold resolveHdr
    rw [if_neg (by rw [habs]; simp), hfind]
  have hc : (iS && is_system_header hdr) = false := by
    cases iS with
    | true => rw [hsys rfl]; rfl
    | false => rfl
  unfold processHeader
  rw [if_neg (by rw [hc]; simp), hres]
  rfl

theorem collectDeps_error (fs dirs : List String) (iS iM : Bool) :
    ∀ (pre : List String) (hdr : String) (post : List String),
      (∀ g ∈ pre, ∀ g0, processHeader fs dirs iS iM g ≠ .fatal g0) →
      processHeader fs dirs iS iM hdr = .fatal hdr →
      collectDeps fs dirs iS iM (pre ++ hdr :: post) = .error hdr := by
  intro pre
  induction pre with
  | nil =>
    intro hdr post _ hf
    rw [List.nil_append, collectDeps_cons, hf]
  | cons g gs ih =>
    intro hdr post hno hf
    rw [List.cons_append, collectDeps_cons]
    cases hp : processHeader fs dirs iS iM g with
    | skipped => exact ih hdr post (fun x hx => hno x (List.mem_cons_of_mem g hx)) hf
    | dep p =>
      rw [ih hdr post (fun x hx => hno x (List.mem_cons_of_mem g hx)) hf]
      rfl
    | fatal g0 =>
      exact absurd hp (hno g (List.mem_cons_self g gs) g0)

/-- C2: in dependency-only mode, a relative, non-excluded header that
resolves nowhere while `-MG` is off aborts the run: exit code 65
(`_OS_EX_DATAERR`), a fatal message naming the header on stderr, and nothing
else — in particular no dependency file is written, whatever `-MF` said. -/
theorem C2_missing_header_fatal (w : ExtWorld) (a : Args) (kf : String)
    (kfs pre post : List String) (hdr : String)
    (hfil : a.ktrans_args.filter (fun s => endsWithS s KL_SUFFIX) = kf :: kfs)
    (hdep : (a.dep_output || a.ignore_syshdrs) = true)
    (hmg : a.ignore_missing_hdrs = false)
    (hincs : scan_for_inc_stmts (w.contents kf) = pre ++ hdr :: post)
    (hpre : ∀ g ∈ pre, ∀ g0,
      processHeader w.fs a.include_dirs a.ignore_syshdrs false g ≠ .fatal g0)
    (habs : isabs hdr = false)
    (hsys : a.ignore_syshdrs = true → is_system_header hdr = false)
    (hfind : find_hdr_in_incdirs w.fs hdr a.include_dirs = none) :
    ktransw_main w a = ([.stderrWrite (fatalMsg hdr)], OS_EX_DATAERR) := by
  have hmain : ktransw_main w a = depModeRun w a kf := by
    simp [ktransw_main, hfil, hdep]
  rw [hmain]
  simp only [depModeRun]
  rw [hincs, hmg]
  rw [collectDeps_error w.fs a.include_dirs a.ignore_syshdrs false pre hdr post hpre
    (processHeader_fatal w.fs a.include_dirs a.ignore_syshdrs hdr habs hsys hfind)]

theorem C2_missing_header_fatal_witness :
    ktransw_main
      { fs := [], contents := fun _ => "%INCLUDE bar\n", dname := "", gppRet := 0,
        gppStderr := "", ktransRet := 0, ktransOut := "" }
      { verbose := false, quiet := false, dry_run := false, dep_output := true,
        ignore_syshdrs := false, dep_target := none, dep_fname := some "out.d",
        ignore_missing_hdrs := false, add_phony_tgt_for_deps := false,
        include_dirs := ["inc"], ktrans_args := ["main.kl"] }
      = ([.stderrWrite (fatalMsg "bar")], OS_EX_DATAERR) := by
  exact C2_missing_header_fatal _ _ "main.kl" [] [] [] "bar" (by decide) (by decide)
    (by decide) (by decide) (by intro g hg; exact absurd hg (by simp)) (by decide)
    (by intro hx; exact absurd hx (by decide)) (by decide)

/-! ## The scanner claims -/

/-- C3 is false as stated: in `"%INCLUDE\n-- foo"` the directive line carries
no token, the `\s+` of the regex crosses the newline, and the returned
reference `--` is taken from the following line — a line whose first
non-whitespace content is the comment marker.  The spec's per-line reading
returns nothing here. -/
theorem C3_counterexample :
    scan_for_inc_stmts "%INCLUDE\n-- foo" = ["--"] ∧
    commentLine ("-- foo").data = true ∧
    scanSpecLines (splitLines ("%INCLUDE\n-- foo").data) = [] :=
  ⟨rfl, rfl, rfl⟩

/-- C3 (amended): provided every line on which an anchored `%INCLUDE` is
followed by whitespace carries a non-whitespace token on that same line, the
scanner returns exactly the per-line references: none from comment lines,
directives anchored at line start after optional whitespace, and only the
first whitespace-delimited token of each directive line.  (Without that
proviso a bare directive takes its token from a following line, which may be
a comment line.) -/
theorem C3_scanner_line_discipline (text : String)
    (hok : ∀ l ∈ splitLines text.data, lineOkB l = true) :
    scan_for_inc_stmts text =
      (scanSpecLines (splitLines text.data)).map (fun l => String.mk l) := by
  unfold scan_for_inc_stmts
  conv_lhs => rw [← joinLines_splitLines text.data]
  rw [scanAux_joinLines (splitLines text.data) (splitLines_no_newline text.data) hok]

theorem C3_scanner_line_discipline_witness :
    (∀ l ∈ splitLines ("-- %INCLUDE a\n  %INCLUDE b c\nEND").data, lineOkB l = true) ∧
    scan_for_inc_stmts "-- %INCLUDE a\n  %INCLUDE b c\nEND" =
      (scanSpecLines (splitLines ("-- %INCLUDE a\n  %INCLUDE b c\nEND").data)).map
        (fun l => String.mk l) :=
  ⟨by decide, C3_scanner_line_discipline _ (by decide)⟩

/-! ## Dry run and source-file selection -/

/-- C6 is false as stated: with no recognized source among the pass-through
arguments, the pass-through branch runs even under the dry-run flag — the
translator is invoked and its exit code (3 here) is returned instead of 0. -/
theorem C6_counterexample :
    ktransw_main
      { fs := [], contents := fun _ => "", dname := "", gppRet := 0, gppStderr := "",
        ktransRet := 3, ktransOut := "" }
      { verbose := false, quiet := false, dry_run := true, dep_output := false,
        ignore_syshdrs := false, dep_target := none, dep_fname := none,
        ignore_missing_hdrs := false, add_phony_tgt_for_deps := false,
        include_dirs := [], ktrans_args := [] }
      = ([.stdoutWrite banner, .runKtrans [KTRANS_BIN_NAME]], 3) :=
  rfl

/-- C6 (amended): with the dry-run flag set, not in dependency-output mode,
and at least one recognized source argument present, the program exits 0
with no observable action: no workspace acquired, no external process run.
(With no source argument present the dry-run flag is ignored and the
translator is invoked in pass-through mode.) -/
theorem C6_dry_run_no_action (w : ExtWorld) (a : Args)
    (hdep : (a.dep_output || a.ignore_syshdrs) = false)
    (hkl : (a.ktrans_args.filter (fun s => endsWithS s KL_SUFFIX)).isEmpty = false)
    (hdry : a.dry_run = true) :
    ktransw_main w a = ([], 0) := by
  simp [ktransw_main, hdep, hkl, hdry]

theorem C6_dry_run_no_action_witness :
    ktransw_main
      { fs := [], contents := fun _ => "", dname := "d", gppRet := 1, gppStderr := "",
        ktransRet := 9, ktransOut := "" }
      { verbose := false, quiet := false, dry_run := true, dep_output := false,
        ignore_syshdrs := false, dep_target := none, dep_fname := none,
        ignore_missing_hdrs := false, add_phony_tgt_for_deps := false,
        include_dirs := [], ktrans_args := ["m.kl"] }
      = ([], 0) :=
  C6_dry_run_no_action _ _ (by decide) (by decide) (by decide)

/-- C10: only the first `.kl` argument is acted upon: the dependency branch
scans that file alone (and derives the default target from it), the compile
branch preprocesses it and substitutes only arguments equal to it, and any
argument different from it — other `.kl` files included — passes to the
translator unchanged. -/
theorem C10_first_source_only (w : ExtWorld) (a : Args) (kf : String) (kfs : List String)
    (hfil : a.ktrans_args.filter (fun s => endsWithS s KL_SUFFIX) = kf :: kfs) :
    ((a.dep_output || a.ignore_syshdrs) = true → ktransw_main w a = depModeRun w a kf) ∧
    ((a.dep_output || a.ignore_syshdrs) = false → a.dry_run = false →
      ktransw_main w a = compileRun w a kf ∧
      (w.gppRet = 0 →
        Ev.runKtrans (KTRANS_BIN_NAME :: a.ktrans_args.map
            (fun s => if s = kf then joinPath w.dname (basename kf) else s))
          ∈ (ktransw_main w a).1) ∧
      (∀ s, s ≠ kf → (if s = kf then joinPath w.dname (basename kf) else s) = s)) := by
  refine ⟨?_, ?_⟩
  · intro hdep
    simp [ktransw_main, hfil, hdep]
  · intro hdep hdry
    have hmain : ktransw_main w a = compileRun w a kf := by
      simp [ktransw_main, hfil, hdep, hdry]
    refine ⟨hmain, ?_, ?_⟩
    · intro hgpp
      rw [hmain]
      simp [compileRun, hgpp]
    · intro s hs
      rw [if_neg hs]

theorem C10_first_source_only_witness :
    ktransw_main
      { fs := [], contents := fun _ => "", dname := "/tmp/w", gppRet := 0,
        gppStderr := "", ktransRet := 0, ktransOut := "" }
      { verbose := false, quiet := false, dry_run := false, dep_output := false,
        ignore_syshdrs := false, dep_target := none, dep_fname := none,
        ignore_missing_hdrs := false, add_phony_tgt_for_deps := false,
        include_dirs := [], ktrans_args := ["a.kl", "b.kl", "/config"] }
      = compileRun
        { fs := [], contents := fun _ => "", dname := "/tmp/w", gppRet := 0,
          gppStderr := "", ktransRet := 0, ktransOut := "" }
        { verbose := false, quiet := false, dry_run := false, dep_output := false,
          ignore_syshdrs := false, dep_target := none, dep_fname := none,
          ignore_missing_hdrs := false, add_phony_tgt_for_deps := false,
          include_dirs := [], ktrans_args := ["a.kl", "b.kl", "/config"] }
        "a.kl" ∧
    (if "b.kl" = "a.kl" then joinPath "/tmp/w" (basename "a.kl") else "b.kl") = "b.kl" := by
  have h := C10_first_source_only
    { fs := [], contents := fun _ => "", dname := "/tmp/w", gppRet := 0,
      gppStderr := "", ktransRet := 0, ktransOut := "" }
    { verbose := false, quiet := false, dry_run := false, dep_output := false,
      ignore_syshdrs := false, dep_target := none, dep_fname := none,
      ignore_missing_hdrs := false, add_phony_tgt_for_deps := false,
      include_dirs := [], ktrans_args := ["a.kl", "b.kl", "/config"] }
    "a.kl" ["b.kl"] (by decide)
  have h2 := h.2 (by decide) (by decide)
  exact ⟨h2.1, h2.2.2 "b.kl" (by decide)⟩

/-! ## Replacement of the workspace path in the translator output -/

theorem replaceFuel_succ (pat rep : List Char) (n : Nat) (c : Char) (cs : List Char) :
    replaceFuel pat rep (n + 1) (c :: cs) =
      if pat.isEmpty then c :: replaceFuel pat rep n cs
      else if pat.isPrefixOf (c :: cs) then
        rep ++ replaceFuel pat rep n ((c :: cs).drop pat.length)
      else c :: replaceFuel pat rep n cs := rfl

theorem replaceFuel_eq_of_le :
    ∀ (n m : Nat) (pat rep s : List Char), s.length ≤ n → s.length ≤ m →
      replaceFuel pat rep n s = replaceFuel pat rep m s := by
  intro n
  induction n with
  | zero =>
    intro m pat rep s hn hm
    have hs : s = [] := by
      cases s with
      | nil => rfl
      | cons c cs => simp at hn
    subst hs
    cases m <;> rfl
  | succ n ih =>
    intro m pat rep s hn hm
    cases s with
    | nil => cases m <;> rfl
    | cons c cs =>
      cases m with
      | zero => simp at hm
      | succ m =>
        rw [replaceFuel_succ, replaceFuel_succ]
        simp only [List.length_cons] at hn hm
        by_cases hpe : pat.isEmpty = true
        · rw [if_pos hpe, if_pos hpe, ih m pat rep cs (by omega) (by omega)]
        · have hpl : 1 ≤ pat.length := by
            cases pat with
            | nil => simp at hpe
            | cons p ps => simp
          rw [if_neg hpe, if_neg hpe]
          by_cases hpre : pat.isPrefixOf (c :: cs) = true
          · rw [if_pos hpre, if_pos hpre,
              ih m pat rep ((c :: cs).drop pat.length)
                (by rw [List.length_drop]; simp; omega)
                (by rw [List.length_drop]; simp; omega)]
          · rw [if_neg hpre, if_neg hpre, ih m pat rep cs (by omega) (by omega)]

theorem replaceIn_cons (pat rep : List Char) (c : Char) (cs : List Char) :
    replaceIn pat rep (c :: cs) =
      if pat.isEmpty then c :: replaceIn pat rep cs
      else if pat.isPrefixOf (c :: cs) then
        rep ++ replaceIn pat rep ((c :: cs).drop pat.length)
      else c :: replaceIn pat rep cs := by
  show replaceFuel pat rep (cs.length + 1) (c :: cs) = _
  rw [replaceFuel_succ]
  by_cases hpe : pat.isEmpty = true
  · rw [if_pos hpe, if_pos hpe]
    rfl
  · have hpl : 1 ≤ pat.length := by
      cases pat with
      | nil => simp at hpe
      | cons p ps => simp
    rw [if_neg hpe, if_neg hpe]
    by_cases hpre : pat.isPrefixOf (c :: cs) = true
    · rw [if_pos hpre, if_pos hpre]
      show rep ++ replaceFuel pat rep cs.length ((c :: cs).drop pat.length) =
        rep ++ replaceIn pat rep ((c :: cs).drop pat.length)
      congr 1
      exact replaceFuel_eq_of_le cs.length ((c :: cs).drop pat.length).length pat rep _
        (by rw [List.length_drop]; simp; omega) (le_refl _)
    · rw [if_neg hpre, if_neg hpre]
      rfl

/-- Python's `str.replace` rewrites the first occurrence of the pattern and proceeds
on the remainder: before an occurrence preceded by no other occurrence, the
text is kept and the occurrence becomes the replacement. -/
theorem replaceIn_first (pat rep : List Char) (hpat : pat ≠ []) :
    ∀ (a b : List Char),
      (∀ i, i < a.length → pat.isPrefixOf ((a ++ (pat ++ b)).drop i) = false) →
      replaceIn pat rep (a ++ (pat ++ b)) = a ++ rep ++ replaceIn pat rep b := by
  intro a
  induction a with
  | nil =>
    intro b _
    rw [List.nil_append, List.nil_append]
    have hpe : pat.isEmpty = false := by
      cases pat with
      | nil => exact absurd rfl hpat
      | cons p ps => rfl
    have hpre : pat.isPrefixOf (pat ++ b) = true := isPrefixOf_self_append _ _
    obtain ⟨p, ps, hp⟩ : ∃ p ps, pat = p :: ps := by
      cases pat with
      | nil => exact absurd rfl hpat
      | cons p ps => exact ⟨p, ps, rfl⟩
    have hcons : pat ++ b = p :: (ps ++ b) := by rw [hp]; rfl
    rw [hcons, replaceIn_cons, ← hcons, if_neg (by rw [hpe]; simp), if_pos hpre,
      List.drop_left]
  | cons x a2 ih =>
    intro b ha
    have h0 : pat.isPrefixOf (x :: (a2 ++ (pat ++ b))) = false := by
      have := ha 0 (by simp)
      simpa using this
    have hpe : pat.isEmpty = false := by
      cases pat with
      | nil => exact absurd rfl hpat
      | cons p ps => rfl
    rw [List.cons_append, replaceIn_cons, if_neg (by rw [hpe]; simp), if_neg (by rw [h0]; simp)]
    rw [ih b ?_]
    · simp
    · intro i hi
      have := ha (i + 1) (by simp; omega)
      rw [List.cons_append, List.drop_succ_cons] at this
      exact this

/-- C8: in compile mode with a successful preprocessor stage, the process
exit code is the translator's exit code unchanged, whether it succeeded or
failed; the emitted output is the translator's captured output with the
workspace path rewritten to the source's directory, and that rewriting
replaces every (leftmost-first) occurrence of the workspace path. -/
theorem C8_output_remap_exit (w : ExtWorld) (a : Args) (kf : String) (kfs : List String)
    (hfil : a.ktrans_args.filter (fun s => endsWithS s KL_SUFFIX) = kf :: kfs)
    (hdep : (a.dep_output || a.ignore_syshdrs) = false)
    (hdry : a.dry_run = false)
    (hgpp : w.gppRet = 0) :
    (ktransw_main w a).2 = w.ktransRet ∧
    (w.ktransRet ≠ 0 →
      Ev.stdoutWrite (replaceAll w.ktransOut w.dname (dirname kf) ++ "\n")
        ∈ (ktransw_main w a).1) ∧
    (∀ pre suf : List Char,
      w.ktransOut.data = pre ++ (w.dname.data ++ suf) →
      w.dname.data ≠ [] →
      (∀ i, i < pre.length →
        w.dname.data.isPrefixOf ((pre ++ (w.dname.data ++ suf)).drop i) = false) →
      (replaceAll w.ktransOut w.dname (dirname kf)).data =
        pre ++ (dirname kf).data ++ replaceIn w.dname.data (dirname kf).data suf) := by
  have hmain : ktransw_main w a = compileRun w a kf := by
    simp [ktransw_main, hfil, hdep, hdry]
  refine ⟨?_, ?_, ?_⟩
  · rw [hmain]
    simp [compileRun, hgpp]
  · intro hkr
    rw [hmain]
    simp [compileRun, hgpp, hkr]
  · intro pre suf hsplit hdn ha
    show replaceIn w.dname.data (dirname kf).data w.ktransOut.data = _
    rw [hsplit]
    exact replaceIn_first w.dname.data (dirname kf).data hdn pre suf ha

theorem C8_output_remap_exit_witness :
    (ktransw_main
      { fs := [], contents := fun _ => "", dname := "/tmp/k", gppRet := 0,
        gppStderr := "", ktransRet := 2, ktransOut := "err /tmp/k/m.kl" }
      { verbose := false, quiet := false, dry_run := false, dep_output := false,
        ignore_syshdrs := false, dep_target := none, dep_fname := none,
        ignore_missing_hdrs := false, add_phony_tgt_for_deps := false,
        include_dirs := [], ktrans_args := ["/src/m.kl"] }).2 = 2 ∧
    Ev.stdoutWrite (replaceAll "err /tmp/k/m.kl" "/tmp/k" (dirname "/src/m.kl") ++ "\n")
      ∈ (ktransw_main
      { fs := [], contents := fun _ => "", dname := "/tmp/k", gppRet := 0,
        gppStderr := "", ktransRet := 2, ktransOut := "err /tmp/k/m.kl" }
      { verbose := false, quiet := false, dry_run := false, dep_output := false,
        ignore_syshdrs := false, dep_target := none, dep_fname := none,
        ignore_missing_hdrs := false, add_phony_tgt_for_deps := false,
        include_dirs := [], ktrans_args := ["/src/m.kl"] }).1 ∧
    (replaceAll "err /tmp/k/m.kl" "/tmp/k" (dirname "/src/m.kl")).data =
      ("err ").data ++ (dirname "/src/m.kl").data ++
        replaceIn ("/tmp/k").data (dirname "/src/m.kl").data ("/m.kl").data := by
  have h := C8_output_remap_exit
    { fs := [], contents := fun _ => "", dname := "/tmp/k", gppRet := 0,
      gppStderr := "", ktransRet := 2, ktransOut := "err /tmp/k/m.kl" }
    { verbose := false, quiet := false, dry_run := false, dep_output := false,
      ignore_syshdrs := false, dep_target := none, dep_fname := none,
      ignore_missing_hdrs := false, add_phony_tgt_for_deps := false,
      include_dirs := [], ktrans_args := ["/src/m.kl"] }
    "/src/m.kl" [] (by decide) (by decide) (by decide) (by decide)
  exact ⟨h.1, h.2.1 (by decide), h.2.2 ("err ").data ("/m.kl").data (by decide) (by decide)
    (by decide)⟩

/-! ## Workspace cleanup claims -/

def EntryList.toList : EntryList → List Entry
  | .nil => []
  | .cons e es => e :: toList es

def entryName : Entry → String
  | .file nm _ => nm
  | .dir nm _ _ => nm

def opName : FsOp → String
  | .removedFile nm => nm
  | .failedFile nm => nm
  | .removedDir nm => nm
  | .failedDir nm => nm

theorem rmtreeChildren_cons (e : Entry) (es : EntryList) :
    (rmtreeChildren (.cons e es)).1 = (rmtreeEntry e).1 ++ (rmtreeChildren es).1 := rfl

/-- Every entry gets at least one removal attempt carrying its name,
whatever succeeds or fails around it. -/
theorem rmtreeEntry_attempts (e : Entry) :
    ∃ op ∈ (rmtreeEntry e).1, opName op = entryName e := by
  cases e with
  | file nm rem =>
    cases rem with
    | true => exact ⟨.removedFile nm, by simp [rmtreeEntry], rfl⟩
    | false => exact ⟨.failedFile nm, by simp [rmtreeEntry], rfl⟩
  | dir nm rem cs =>
    by_cases h : ((rmtreeChildren cs).2.isNil && rem) = true
    · refine ⟨.removedDir nm, ?_, rfl⟩
      simp [rmtreeEntry, h]
    · refine ⟨.failedDir nm, ?_, rfl⟩
      simp [rmtreeEntry, h]

theorem rmtreeChildren_attempts :
    ∀ (cs : EntryList), ∀ e ∈ cs.toList,
      ∃ op ∈ (rmtreeChildren cs).1, opName op = entryName e
  | .nil => by intro e he; simp [EntryList.toList] at he
  | .cons x xs => by
    intro e he
    rw [rmtreeChildren_cons]
    rcases List.mem_cons.mp he with h1 | h1
    · subst h1
      obtain ⟨op, hop, hnm⟩ := rmtreeEntry_attempts e
      exact ⟨op, List.mem_append_left _ hop, hnm⟩
    · obtain ⟨op, hop, hnm⟩ := rmtreeChildren_attempts xs e h1
      exact ⟨op, List.mem_append_right _ hop, hnm⟩

/-- Every removable plain file among the children is actually removed, no
matter which siblings fail. -/
theorem rmtreeChildren_removes :
    ∀ (cs : EntryList) (nm : String), Entry.file nm true ∈ cs.toList →
      FsOp.removedFile nm ∈ (rmtreeChildren cs).1
  | .nil => by intro nm h; simp [EntryList.toList] at h
  | .cons x xs => by
    intro nm h
    rw [rmtreeChildren_cons]
    rcases List.mem_cons.mp h with h1 | h1
    · rw [← h1]
      exact List.mem_append_left _ (by simp [rmtreeEntry])
    · exact List.mem_append_right _ (rmtreeChildren_removes xs nm h1)

/-- C7: `cleanup` runs the removal at most once per acquisition — a second
invocation (from any other exit path) performs nothing; `_rmtree` attempts
every sibling and then the parent regardless of individual failures, which
are swallowed (the traversal always completes and returns); removable sibling
files are removed even when another child cannot be. -/
theorem C7_cleanup_once_best_effort :
    (∀ (t : TmpDirState) (root : Entry),
      tmpdirCleanup (tmpdirCleanup t root).2 root = ([], (tmpdirCleanup t root).2)) ∧
    (∀ (e : Entry) (es : EntryList),
      (rmtreeChildren (.cons e es)).1 = (rmtreeEntry e).1 ++ (rmtreeChildren es).1) ∧
    (∀ (nm : String) (rem : Bool) (cs : EntryList),
      (rmtreeEntry (.dir nm rem cs)).1 = (rmtreeChildren cs).1 ++
        (if ((rmtreeChildren cs).2.isNil && rem) = true then [FsOp.removedDir nm]
         else [FsOp.failedDir nm])) ∧
    (∀ (cs : EntryList), ∀ e ∈ cs.toList,
      ∃ op ∈ (rmtreeChildren cs).1, opName op = entryName e) ∧
    (∀ (cs : EntryList) (nm : String), Entry.file nm true ∈ cs.toList →
      FsOp.removedFile nm ∈ (rmtreeChildren cs).1) := by
  refine ⟨?_, ?_, ?_, rmtreeChildren_attempts, rmtreeChildren_removes⟩
  · intro t root
    by_cases h : (t.name.isSome && !t.closed) = true
    · have h2 : (tmpdirCleanup t root).2 = { t with closed := true } := by
        simp [tmpdirCleanup, h]
      rw [h2]
      simp [tmpdirCleanup]
    · have h2 : (tmpdirCleanup t root).2 = t := by
        simp [tmpdirCleanup, h]
      rw [h2]
      simp [tmpdirCleanup, h]
  · intro e es
    rfl
  · intro nm rem cs
    by_cases h : ((rmtreeChildren cs).2.isNil && rem) = true
    · rw [if_pos h]
      simp [rmtreeEntry, h]
    · rw [if_neg h]
      simp [rmtreeEntry, h]

theorem C7_cleanup_once_best_effort_witness :
    tmpdirCleanup
      (tmpdirCleanup { name := some "/tmp/w", closed := false }
        (.dir "w" true (.cons (.file "a" false) (.cons (.file "b" true) .nil)))).2
      (.dir "w" true (.cons (.file "a" false) (.cons (.file "b" true) .nil)))
      = ([], (tmpdirCleanup { name := some "/tmp/w", closed := false }
        (.dir "w" true (.cons (.file "a" false) (.cons (.file "b" true) .nil)))).2) ∧
    (∃ op ∈ (rmtreeChildren (.cons (.file "a" false) (.cons (.file "b" true) .nil))).1,
      opName op = entryName (.file "a" false)) ∧
    FsOp.removedFile "b" ∈
      (rmtreeChildren (.cons (.file "a" false) (.cons (.file "b" true) .nil))).1 := by
  have h := C7_cleanup_once_best_effort
  refine ⟨h.1 _ _, ?_, ?_⟩
  · exact h.2.2.2.1 (.cons (.file "a" false) (.cons (.file "b" true) .nil))
      (.file "a" false) (by simp [EntryList.toList])
  · exact h.2.2.2.2 (.cons (.file "a" false) (.cons (.file "b" true) .nil)) "b"
      (by simp [EntryList.toList])

end Ktransw
